import Mathlib

/-!
Shallow embedding of the go-env library (github.com/nikcorg/go-env) and proofs
about it.

The repository snapshot contains two revisions of the library.  The current
revision consists of the engine with AssertedEnvironment, fallback handling and
the untagged-field check (src/unnamed/part_000) together with the value types
including the slice and HostPort kinds (src/unnamed/part_002); the files
src/validate.go (first section) and src/types.go hold an older revision of the
same functions.  Where the two revisions differ (fallback resolution, the
untagged-field check, the integer rendering) the embedding follows the current
revision, which is the one the README, the tests and the specification
describe.

Machine integers: Go int is a 64-bit signed integer on the platforms this
library targets; it is modelled as Lean Int together with the explicit range
checks that strconv.Atoi performs.  The conversion int(math.NaN()) that asInt
performs on empty input is implementation-defined in Go; the embedding models
the result produced by the standard gc compiler on amd64, which is the most
negative 64-bit integer.

Strings are modelled as Lean String, with character-level work done on
List Char via String.data.  Go standard-library collaborators used by the
source (strconv.Atoi, strconv.Itoa, fmt.Sprintf with the d verb, strings.Split,
strings.Join, net/url.Parse and URL.String) are modelled here as well; the
net/url model covers the URL features the library exercises (scheme, userinfo,
host with bracketed IPv6 and port validation, path, query, fragment, the
control-character and missing-scheme and first-segment-colon errors) and does
not model percent-encoding, which cancels out between URL.String and a
following url.Parse.
-/

/-! ## Character classes (byte-level tests from the Go sources, via code points) -/

def isDigitChar (c : Char) : Bool := decide (48 ≤ c.toNat) && decide (c.toNat ≤ 57)

def isUpperAlpha (c : Char) : Bool := decide (65 ≤ c.toNat) && decide (c.toNat ≤ 90)

def isLowerAlpha (c : Char) : Bool := decide (97 ≤ c.toNat) && decide (c.toNat ≤ 122)

def isAlphaChar (c : Char) : Bool := isUpperAlpha c || isLowerAlpha c

-- Model of Go strings.ContainsCtlByte: a byte below space, or DEL.
def isCtlChar (c : Char) : Bool := decide (c.toNat < 32) || decide (c.toNat = 127)

-- ASCII lowering as in Go strings.ToLower, restricted to the letters it moves.
def toLowerChar (c : Char) : Char :=
  if 65 ≤ c.toNat ∧ c.toNat ≤ 90 then Char.ofNat (c.toNat + 32) else c

/-! ## Go strings.Split / strings.Join (single-character separators, as used by
the library: the enum separator is the comma) -/

def goSplitAux (sep : Char) : List Char → List Char → List (List Char)
  | acc, [] => [acc.reverse]
  | acc, c :: cs =>
    if c = sep then acc.reverse :: goSplitAux sep [] cs
    else goSplitAux sep (c :: acc) cs

-- Model of Go strings.Split with a one-character separator: n separators give
-- n+1 substrings, and the empty string yields one empty substring.
def goSplit (s : String) (sep : Char) : List String :=
  (goSplitAux sep [] s.data).map String.mk

-- Model of Go strings.Join.
def goJoin : List String → String → String
  | [], _ => ""
  | [a], _ => a
  | a :: b :: rest, sep => a ++ sep ++ goJoin (b :: rest) sep

/-! ## Decimal rendering: fmt.Sprintf with the d verb / strconv.Itoa -/

def digitChar : Nat → Char
  | 0 => '0'
  | 1 => '1'
  | 2 => '2'
  | 3 => '3'
  | 4 => '4'
  | 5 => '5'
  | 6 => '6'
  | 7 => '7'
  | 8 => '8'
  | _ => '9'

-- Little-endian decimal digits of a natural number, with fuel for structural
-- recursion; fuel n is always enough for n itself.
def decDigitsAux : Nat → Nat → List Nat
  | 0, _ => []
  | fuel + 1, n => if n = 0 then [] else n % 10 :: decDigitsAux fuel (n / 10)

def natDecChars (n : Nat) : List Char :=
  if n = 0 then ['0'] else ((decDigitsAux n n).map digitChar).reverse

-- Value of a little-endian digit list (specification device for the proofs
-- about decimal rendering).
def decValLE (l : List Nat) : Nat := l.foldr (fun d a => a * 10 + d) 0

-- Model of the decimal rendering used by strconv.Itoa and the d verb of
-- fmt.Sprintf on a 64-bit signed integer.
def goItoa (n : Int) : String :=
  if n < 0 then String.mk ('-' :: natDecChars (-n).toNat)
  else String.mk (natDecChars n.toNat)

/-! ## strconv.Atoi -/

-- Sign handling of strconv.ParseInt: one optional leading plus or minus.
def splitSign : List Char → Bool × List Char
  | [] => (false, [])
  | c :: r =>
    if c.toNat = 45 then (true, r)
    else if c.toNat = 43 then (false, r)
    else (false, c :: r)

def digitsVal (cs : List Char) : Nat :=
  cs.foldl (fun a c => a * 10 + (c.toNat - 48)) 0

-- Digit-run parsing: at least one character, all decimal digits.
def parseDigits (cs : List Char) : Option Nat :=
  if !cs.isEmpty && cs.all isDigitChar then some (digitsVal cs) else none

-- Model of strconv.Atoi on a 64-bit platform: optional sign, a non-empty run
-- of decimal digits, and the signed 64-bit range check.  Both the syntax error
-- and the range error of strconv are collapsed to none, exactly as the
-- library treats them (any non-nil error aborts the field).
def goAtoi (s : String) : Option Int :=
  match parseDigits (splitSign s.data).2 with
  | none => none
  | some m =>
    if (splitSign s.data).1 then (if m ≤ 2 ^ 63 then some (-(m : Int)) else none)
    else (if m ≤ 2 ^ 63 - 1 then some (m : Int) else none)

-- Syntactic well-formedness of a decimal integer literal (the inputs on which
-- strconv.Atoi does not report a syntax error).
def isIntLiteral (s : String) : Bool :=
  !(splitSign s.data).2.isEmpty && (splitSign s.data).2.all isDigitChar

/-! ## The error taxonomy of the library (one constructor per distinct
fmt.Errorf / errors.New site reachable from validation) -/

inductive Err where
  | unexpectedEmptyValue : Err
  | invalidInteger : String → Err
  | invalidURL : String → Err
  | partialURLValue : String → Err
  | invalidEnumValue : String → Err
  | invalidHostPort : String → Err
  | unsettableField : String → Err
  | untaggedField : String → Err
  | unknownFieldType : String → Err
deriving DecidableEq

-- Decidable equality for Except results, so that concrete runs of the
-- embedded functions can be checked by decide.
def exceptDecEq {e a : Type} [DecidableEq e] [DecidableEq a] : DecidableEq (Except e a) :=
  fun x y =>
    match x, y with
    | .error u, .error v =>
      if h : u = v then .isTrue (by rw [h]) else .isFalse (by intro hc; cases hc; exact h rfl)
    | .ok u, .ok v =>
      if h : u = v then .isTrue (by rw [h]) else .isFalse (by intro hc; cases hc; exact h rfl)
    | .error _, .ok _ => .isFalse (by intro hc; cases hc)
    | .ok _, .error _ => .isFalse (by intro hc; cases hc)

instance {e a : Type} [DecidableEq e] [DecidableEq a] : DecidableEq (Except e a) :=
  exceptDecEq

/-! ## net/url model (the slice of url.Parse and URL.String the library uses) -/

def isSchemeTailChar (c : Char) : Bool :=
  isAlphaChar c || isDigitChar c || decide (c.toNat = 43) || decide (c.toNat = 45) ||
    decide (c.toNat = 46)

-- Characters Go validUserinfo admits in the userinfo component.
def isUserinfoChar (c : Char) : Bool :=
  isAlphaChar c || isDigitChar c ||
    [33, 36, 37, 38, 39, 40, 41, 42, 43, 44, 45, 46, 58, 59, 61, 64, 95, 126].contains c.toNat

-- Cut a character list at the first occurrence of sep: the part before it and,
-- when sep occurs, the part after it.
def splitFirst (sep : Char) : List Char → List Char × Option (List Char)
  | [] => ([], none)
  | c :: cs =>
    if c = sep then ([], some cs)
    else
      match splitFirst sep cs with
      | (a, r) => (c :: a, r)

-- Cut a character list at the last occurrence of sep.
def splitLast (sep : Char) (l : List Char) : Option (List Char × List Char) :=
  match splitFirst sep l.reverse with
  | (_, none) => none
  | (a, some r) => some (r.reverse, a.reverse)

structure GoURL where
  scheme : List Char
  opq : List Char
  user : Option (List Char)
  host : List Char
  path : List Char
  forceQuery : Bool
  rawQuery : List Char
  fragment : List Char
deriving DecidableEq

-- Model of net/url getScheme: scan for a scheme followed by a colon; a colon
-- in first position is the missing-protocol-scheme error (none); any other
-- early stop means the URL simply has no scheme.
def getSchemeAux (orig : List Char) : List Char → List Char → Option (List Char × List Char)
  | _, [] => some ([], orig)
  | acc, c :: cs =>
    if isAlphaChar c then getSchemeAux orig (c :: acc) cs
    else if isDigitChar c || decide (c.toNat = 43) || decide (c.toNat = 45) ||
        decide (c.toNat = 46) then
      (if acc.isEmpty then some ([], orig) else getSchemeAux orig (c :: acc) cs)
    else if c = ':' then (if acc.isEmpty then none else some (acc.reverse, cs))
    else some ([], orig)

def getScheme (s : List Char) : Option (List Char × List Char) :=
  getSchemeAux s [] s

-- Query splitting of net/url parse: a single trailing question mark sets
-- ForceQuery; otherwise cut at the first question mark.
def splitQuery (rest : List Char) : List Char × Bool × List Char :=
  if rest.getLast? = some '?' ∧ ¬ ('?' ∈ rest.dropLast) then
    (rest.dropLast, true, [])
  else
    match splitFirst '?' rest with
    | (a, none) => (a, false, [])
    | (a, some q) => (a, false, q)

-- Model of net/url validOptionalPort composed with the host checks of
-- parseHost: brackets must close and what follows the bracket or the last
-- colon must be an optional all-digit port.
def parseHostOK (host : List Char) : Bool :=
  match host with
  | '[' :: _ =>
    (match splitLast ']' host with
     | none => false
     | some (_, after) =>
       match after with
       | [] => true
       | ':' :: p => p.all isDigitChar
       | _ => false)
  | _ =>
    (match splitLast ':' host with
     | none => true
     | some (_, after) => after.all isDigitChar)

-- Model of net/url parseAuthority: split userinfo at the last at-sign,
-- validate the host, validate the userinfo characters.
def parseAuthority (auth : List Char) : Option (Option (List Char) × List Char) :=
  match splitLast '@' auth with
  | none => if parseHostOK auth then some (none, auth) else none
  | some (ui, h) =>
    if parseHostOK h then
      (if ui.all isUserinfoChar then some (some ui, h) else none)
    else none

-- Path reassembly after the authority cut of net/url parse: when the cut
-- found a slash, the path keeps it.
def optSlash : Option (List Char) → List Char
  | none => []
  | some r => '/' :: r

-- Model of net/url parse (viaRequest false) on the pre-fragment part.
def urlParseCore (s : List Char) : Option GoURL :=
  if s.any isCtlChar then none
  else if s = ['*'] then
    some ⟨[], [], none, [], ['*'], false, [], []⟩
  else
    match getScheme s with
    | none => none
    | some (sch, rest0) =>
      let scheme := sch.map toLowerChar
      let qr := splitQuery rest0
      let rest := qr.1
      let fq := qr.2.1
      let rq := qr.2.2
      if rest.head? ≠ some '/' ∧ scheme ≠ [] then
        some ⟨scheme, rest, none, [], [], fq, rq, []⟩
      else if rest.head? ≠ some '/' ∧ ((rest.takeWhile (fun c => ¬ c = '/')).any (fun c => c = ':')) then
        none
      else if (scheme ≠ [] ∨ rest.take 3 ≠ ['/', '/', '/']) ∧ rest.take 2 = ['/', '/'] then
        (let tail := rest.drop 2
         let cut := splitFirst '/' tail
         let auth := cut.1
         let restPath : List Char := optSlash cut.2
         match parseAuthority auth with
         | none => none
         | some (user, host) => some ⟨scheme, [], user, host, restPath, fq, rq, []⟩)
      else
        some ⟨scheme, [], none, [], rest, fq, rq, []⟩

-- Model of net/url Parse: cut the fragment at the first hash, parse the rest.
def urlParse (s : String) : Option GoURL :=
  match splitFirst '#' s.data with
  | (pre, none) => urlParseCore pre
  | (pre, some f) =>
    match urlParseCore pre with
    | none => none
    | some u => some { u with fragment := f }

-- Does the prefix of the path before its first slash contain a colon?  Used by
-- URL.String for the RFC 3986 relative-reference guard.
def firstSegmentHasColon (path : List Char) : Bool :=
  (path.takeWhile (fun c => ¬ c = '/')).any (fun c => c = ':')

-- Userinfo rendering of URL.String: the userinfo followed by the at-sign when
-- present, nothing otherwise.
def userPart : Option (List Char) → List Char
  | some ui => ui ++ ['@']
  | none => []

-- Model of net/url URL.String (escaping omitted, see the header comment).
def urlRender (u : GoURL) : List Char :=
  let schemePart : List Char := if u.scheme.isEmpty then [] else u.scheme ++ [':']
  let mainPart : List Char :=
    if !u.opq.isEmpty then u.opq
    else
      let auth : List Char :=
        if !u.scheme.isEmpty || !u.host.isEmpty || u.user.isSome then
          (if !u.host.isEmpty || !u.path.isEmpty || u.user.isSome then ['/', '/'] else []) ++
            userPart u.user ++ u.host
        else []
      let slash : List Char :=
        if !u.path.isEmpty && u.path.head? ≠ some '/' && !u.host.isEmpty then ['/'] else []
      let dotSlash : List Char :=
        if (schemePart ++ auth ++ slash).isEmpty && firstSegmentHasColon u.path then
          ['.', '/']
        else []
      auth ++ slash ++ dotSlash ++ u.path
  schemePart ++ mainPart ++
    (if u.forceQuery || !u.rawQuery.isEmpty then '?' :: u.rawQuery else []) ++
    (if !u.fragment.isEmpty then '#' :: u.fragment else [])

def urlString (u : GoURL) : String := String.mk (urlRender u)

/-! ## The per-kind parsing and validation functions of the library
(src/unnamed/part_000, identical in the older src/validate.go revision) -/

-- Go asNotEmpty: reject the empty string.
def asNotEmpty (s : String) : Except Err String :=
  if s = "" then .error .unexpectedEmptyValue else .ok s

-- Result of the Go conversion int(math.NaN()) under the standard gc compiler
-- on amd64 (the conversion is implementation-defined; the repository's own
-- tests expect 0 instead, see the theorems on claim C2).
def intNaN : Int := -(2 ^ 63)

-- Go asInt: empty input yields int(math.NaN()) with no error; otherwise
-- strconv.Atoi, any error of which becomes the invalid-integer failure.
def asInt (s : String) : Except Err Int :=
  if s = "" then .ok intNaN
  else
    match goAtoi s with
    | none => .error (.invalidInteger s)
    | some n => .ok n

-- Go asNotEmptyInt: non-empty check first, then asInt.
def asNotEmptyInt (s : String) : Except Err Int :=
  match asNotEmpty s with
  | .error e => .error e
  | .ok _ => asInt s

-- Go asURL: empty input passes through; otherwise url.Parse must succeed and
-- the result must have a non-empty scheme and host; the canonical rendering of
-- the parsed URL is stored.
def asURL (s : String) : Except Err String :=
  if s = "" then .ok ""
  else
    match urlParse s with
    | none => .error (.invalidURL s)
    | some u =>
      if u.scheme.isEmpty || u.host.isEmpty then .error (.partialURLValue s)
      else .ok (urlString u)

-- Go asNotEmptyURL: non-empty check first, then asURL.
def asNotEmptyURL (s : String) : Except Err String :=
  match asNotEmpty s with
  | .error e => .error e
  | .ok _ => asURL s

-- Go contains: linear scan for an exact, case-sensitive match.
def contains : List String → String → Bool
  | [], _ => false
  | v :: vs, x => if v = x then true else contains vs x

-- Go asEnum: empty input passes through; otherwise the value must be one of
-- the comma-split members of the enum tag.
def asEnum (s : String) (vals : String) : Except Err String :=
  if s = "" then .ok ""
  else if !(contains (goSplit vals ',') s) then .error (.invalidEnumValue s)
  else .ok s

-- Go asNotEmptyEnum: non-empty check first, then asEnum.
def asNotEmptyEnum (s : String) (vals : String) : Except Err String :=
  match asNotEmpty s with
  | .error e => .error e
  | .ok _ => asEnum s vals

/-! ## Value rendering from the current types revision (src/unnamed/part_002) -/

-- Method String of type Int: fmt.Sprintf with the d verb.
def IntString (n : Int) : String := goItoa n

-- Method String of type StringSlice: strings.Join with the comma.
def StringSliceString (x : List String) : String := goJoin x ","

-- Go string slicing out[1:] requires the string to be at least one byte long;
-- on a shorter string it panics, modelled as none.
def goStringFromSecond (s : String) : Option String :=
  if 1 ≤ s.length then some (s.drop 1) else none

-- Method String of type IntSlice: fold a comma-prefixed rendering of every
-- element, then drop the first byte.
def IntSliceString (x : List Int) : Option String :=
  goStringFromSecond (x.foldl (fun out s => out ++ "," ++ goItoa s) "")

-- Method String of type NonEmptyIntSlice: same body as IntSlice.
def NonEmptyIntSliceString (x : List Int) : Option String :=
  goStringFromSecond (x.foldl (fun out s => out ++ "," ++ goItoa s) "")

structure HostPort where
  host : String
  port : String
deriving DecidableEq

-- Method String of type HostPort: bracket the host when it contains a colon.
def HostPortString (v : HostPort) : String :=
  if v.host.contains ':' then "[" ++ v.host ++ "]:" ++ v.port
  else v.host ++ ":" ++ v.port

/-- Modelled from the spec: the function asHostPort of this repository is not
under src (only its tests and the HostPort type are).  The spec says a
non-empty value must split into exactly a host part and a port part at the
last colon, with an IPv6 literal host supported in bracket form, failing with
the invalid-host-port error otherwise (this is the contract of Go
net.SplitHostPort named by the README); the empty value yields the zero
pair. -/
def asHostPort (s : String) : Except Err HostPort :=
  if s = "" then .ok ⟨"", ""⟩
  else
    match splitLast ':' s.data with
    | none => .error (.invalidHostPort s)
    | some (h, p) =>
      if '@' ∈ h ∨ '@' ∈ p then .error (.invalidHostPort s)
      else if ':' ∈ h then
        (match h with
         | '[' :: rest =>
           if rest.getLast? = some ']' then .ok ⟨String.mk rest.dropLast, String.mk p⟩
           else .error (.invalidHostPort s)
         | _ => .error (.invalidHostPort s))
      else .ok ⟨String.mk h, String.mk p⟩

/-! ## The population and validation engine (src/unnamed/part_000) -/

-- The closed set of field kinds the engine dispatches on, by the name of the
-- field's type; the catch-all carries the unrecognized type name.
inductive FieldKind where
  | kInt : FieldKind
  | kNonEmptyInt : FieldKind
  | kString : FieldKind
  | kNonEmptyString : FieldKind
  | kURL : FieldKind
  | kNonEmptyURL : FieldKind
  | kEnum : FieldKind
  | kNonEmptyEnum : FieldKind
  | kUnknown : String → FieldKind
deriving DecidableEq

-- A populated field value: every kind the engine handles stores an integer or
-- a string.
inductive Value where
  | vInt : Int → Value
  | vStr : String → Value
deriving DecidableEq

-- Per-field schema metadata: the struct field name, reflect CanSet, the env
-- tag (Tag.Lookup: present or absent), the default tag (Tag.Lookup), the enum
-- tag (Tag.Get: absent reads as the empty string), and the field's type.
structure FieldMeta where
  name : String
  settable : Bool
  envTag : Option String
  fallbackTag : Option String
  enumTag : String
  kind : FieldKind

-- Raw-value resolution of the engine loop: the lookup result, or the fallback
-- tag when the lookup result is empty and a fallback is declared.
def resolveRaw (envName : String) (fallback : Option String) (lookup : String → String) : String :=
  let candidate := lookup envName
  if candidate = "" then
    match fallback with
    | some fb => fb
    | none => candidate
  else candidate

-- One iteration of the engine loop of getValue: settability check, env-tag
-- check, raw-value resolution, dispatch on the field kind.
def processField (f : FieldMeta) (lookup : String → String) : Except Err Value :=
  if f.settable = false then .error (.unsettableField f.name)
  else
    match f.envTag with
    | none => .error (.untaggedField f.name)
    | some envName =>
      let candidate := resolveRaw envName f.fallbackTag lookup
      match f.kind with
      | .kInt =>
        (match asInt candidate with
         | .error e => .error e
         | .ok n => .ok (.vInt n))
      | .kNonEmptyInt =>
        (match asNotEmptyInt candidate with
         | .error e => .error e
         | .ok n => .ok (.vInt n))
      | .kString => .ok (.vStr candidate)
      | .kNonEmptyString =>
        (match asNotEmpty candidate with
         | .error e => .error e
         | .ok v => .ok (.vStr v))
      | .kURL =>
        (match asURL candidate with
         | .error e => .error e
         | .ok v => .ok (.vStr v))
      | .kNonEmptyURL =>
        (match asNotEmptyURL candidate with
         | .error e => .error e
         | .ok v => .ok (.vStr v))
      | .kEnum =>
        (match asEnum candidate f.enumTag with
         | .error e => .error e
         | .ok v => .ok (.vStr v))
      | .kNonEmptyEnum =>
        (match asNotEmptyEnum candidate f.enumTag with
         | .error e => .error e
         | .ok v => .ok (.vStr v))
      | .kUnknown t => .error (.unknownFieldType t)

-- Go getValue: build the populated record in a fresh value, field by field in
-- declaration order, aborting on the first error.
def getValue : List FieldMeta → (String → String) → Except Err (List Value)
  | [], _ => .ok []
  | f :: fs, lookup =>
    match processField f lookup with
    | .error e => .error e
    | .ok v =>
      match getValue fs lookup with
      | .error e => .error e
      | .ok vs => .ok (v :: vs)

-- Go validate: compute the populated record off to the side, then either
-- return the error leaving the target untouched, or commit the new contents
-- to the target in one assignment.  The target record is threaded explicitly;
-- the result pairs the returned error (if any) with the target's contents
-- after the call.
def validate (fields : List FieldMeta) (lookup : String → String) (target : List Value) :
    Option Err × List Value :=
  match getValue fields lookup with
  | .error e => (some e, target)
  | .ok v => (none, v)

/-! ## Concrete schema and lookup of end-to-end scenario B of the spec -/

def beepField : FieldMeta :=
  ⟨"Beep", true, some "BEEP", none, "", .kNonEmptyString⟩

def brrtField : FieldMeta :=
  ⟨"Brrt", true, some "BRRT", some "fallback value", "", .kNonEmptyString⟩

def lookupB : String → String := fun k => if k = "BEEP" then "hello world" else ""

/-! # Theorems -/

/-! ## Engine lemmas shared by several claims -/

theorem getValue_prefix_error (pre post : List FieldMeta) (f : FieldMeta)
    (lookup : String → String) (e : Err)
    (hpre : ∀ g ∈ pre, ∃ v, processField g lookup = .ok v)
    (hf : processField f lookup = .error e) :
    getValue (pre ++ f :: post) lookup = .error e := by
  induction pre with
  | nil => simp [getValue, hf]
  | cons g gs ih =>
    obtain ⟨v, hv⟩ := hpre g (List.mem_cons_self g gs)
    have hrec : getValue (gs ++ f :: post) lookup = .error e :=
      ih (fun g2 hg2 => hpre g2 (List.mem_cons_of_mem g hg2))
    simp [getValue, hv, hrec]

/-- C1: validation is all-or-nothing.  For every schema, lookup function and
target record, either some per-field step fails, in which case validate
returns that error and the target record is returned exactly as it was, or
every field succeeds, in which case the record assembled by getValue (built
independently of the target) replaces the target's contents in the single
final assignment. -/
theorem validate_all_or_nothing (fields : List FieldMeta) (lookup : String → String)
    (target : List Value) :
    (∃ e, getValue fields lookup = .error e ∧ validate fields lookup target = (some e, target)) ∨
    (∃ vs, getValue fields lookup = .ok vs ∧ validate fields lookup target = (none, vs)) := by
  cases h : getValue fields lookup with
  | error e => exact .inl ⟨e, rfl, by simp [validate, h]⟩
  | ok vs => exact .inr ⟨vs, rfl, by simp [validate, h]⟩

/-- C3: a settable field with no env tag makes Validate fail with the
untagged-field error naming that field, for every lookup function (the lookup
is never consulted for the failing field) and whatever fields follow it,
provided the fields before it pass their per-field steps. -/
theorem validate_untagged_field (pre post : List FieldMeta) (f : FieldMeta)
    (lookup : String → String) (target : List Value)
    (hset : f.settable = true) (htag : f.envTag = none)
    (hpre : ∀ g ∈ pre, ∃ v, processField g lookup = .ok v) :
    validate (pre ++ f :: post) lookup target = (some (.untaggedField f.name), target) := by
  have hf : processField f lookup = .error (.untaggedField f.name) := by
    simp [processField, hset, htag]
  have h := getValue_prefix_error pre post f lookup _ hpre hf
  simp [validate, h]

theorem validate_untagged_field_witness :
    validate [⟨"Boop", true, none, none, "", .kString⟩,
        ⟨"Tail", true, some "T", none, "", .kString⟩]
      (fun _ => "anything") [Value.vStr "old"] =
      (some (.untaggedField "Boop"), [Value.vStr "old"]) :=
  validate_untagged_field [] [⟨"Tail", true, some "T", none, "", .kString⟩]
    ⟨"Boop", true, none, none, "", .kString⟩ (fun _ => "anything") [Value.vStr "old"]
    rfl rfl (by intro g hg; cases hg)

/-- C7: fields are processed in declaration order and the first failing field
decides the result: when every field before f succeeds and f's per-field step
fails with e, Validate returns exactly e, whatever fields follow f (so no
later field is parsed or looked up, and errors are never combined), and the
target is untouched. -/
theorem validate_first_error_wins (pre post : List FieldMeta) (f : FieldMeta)
    (lookup : String → String) (target : List Value) (e : Err)
    (hpre : ∀ g ∈ pre, ∃ v, processField g lookup = .ok v)
    (hf : processField f lookup = .error e) :
    validate (pre ++ f :: post) lookup target = (some e, target) := by
  have h := getValue_prefix_error pre post f lookup e hpre hf
  simp [validate, h]

theorem validate_first_error_wins_witness :
    validate [⟨"A", true, some "A", none, "", .kInt⟩,
        ⟨"B", true, some "B", none, "", .kInt⟩,
        ⟨"C", true, none, none, "", .kString⟩]
      (fun k => if k = "A" then "1" else "oops") [Value.vInt 0] =
      (some (.invalidInteger "oops"), [Value.vInt 0]) :=
  validate_first_error_wins [⟨"A", true, some "A", none, "", .kInt⟩]
    [⟨"C", true, none, none, "", .kString⟩]
    ⟨"B", true, some "B", none, "", .kInt⟩
    (fun k => if k = "A" then "1" else "oops") [Value.vInt 0] (.invalidInteger "oops")
    (by
      intro g hg
      simp only [List.mem_singleton] at hg
      subst hg
      exact ⟨.vInt 1, by decide⟩)
    (by decide)

/-- C6: raw-value resolution uses the fallback exactly when the lookup result
is empty: an empty lookup with a declared fallback resolves to the fallback
literal, a non-empty lookup ignores any fallback, and in end-to-end scenario B
a required-text field whose key is absent succeeds with its fallback value. -/
theorem resolveRaw_fallback :
    (∀ (key fb : String) (lookup : String → String),
        lookup key = "" → resolveRaw key (some fb) lookup = fb) ∧
    (∀ (key : String) (fbOpt : Option String) (lookup : String → String),
        lookup key ≠ "" → resolveRaw key fbOpt lookup = lookup key) ∧
    validate [beepField, brrtField] lookupB [Value.vStr "", Value.vStr ""] =
      (none, [Value.vStr "hello world", Value.vStr "fallback value"]) := by
  refine ⟨?_, ?_, by decide⟩
  · intro key fb lookup h
    simp [resolveRaw, h]
  · intro key fbOpt lookup h
    simp [resolveRaw, h]

theorem resolveRaw_fallback_witness :
    resolveRaw "K" (some "fb") (fun _ => "") = "fb" ∧
    resolveRaw "K" (some "fb") (fun _ => "set") = "set" :=
  ⟨resolveRaw_fallback.1 "K" "fb" (fun _ => "") rfl,
   resolveRaw_fallback.2.1 "K" (some "fb") (fun _ => "set") (by decide)⟩

/-- C2: behaviour of every parser on the empty input string.  The required
variants all fail with the unexpected-empty-value error and the plain URL and
enum parsers return the empty string, as the claim says; but the plain integer
parser returns the int conversion of math.NaN, which under the standard gc
compiler on amd64 is the most negative 64-bit integer and not the zero value 0
that the claim (and the repository's own TestAsInt) expects. -/
theorem emptyInput_parser_results :
    asInt "" = .ok intNaN ∧ intNaN = -(2 ^ 63) ∧ intNaN ≠ 0 ∧
    asNotEmpty "" = .error .unexpectedEmptyValue ∧
    asNotEmptyInt "" = .error .unexpectedEmptyValue ∧
    asURL "" = .ok "" ∧
    asNotEmptyURL "" = .error .unexpectedEmptyValue ∧
    (∀ vals, asEnum "" vals = .ok "") ∧
    (∀ vals, asNotEmptyEnum "" vals = .error .unexpectedEmptyValue) := by
  refine ⟨by decide, by decide, by decide, by decide, by decide, by decide, by decide, ?_, ?_⟩
  · intro vals
    simp [asEnum]
  · intro vals
    simp [asNotEmptyEnum, asNotEmpty]

/-- C8: host-port parsing maps the string localhost:1234 to the pair with host
localhost and port 1234, and rejects the separator-free string localhost with
the invalid-host-port error. -/
theorem asHostPort_cases :
    asHostPort "localhost:1234" = .ok ⟨"localhost", "1234"⟩ ∧
    asHostPort "localhost" = .error (.invalidHostPort "localhost") :=
  ⟨by decide, by decide⟩

/-- C9: list rendering is not total.  The string-slice rendering is total and
comma-joins (the empty list gives the empty string), but the integer-slice
renderings slice the first byte off the accumulated string, which on the empty
list is the empty string: the byte access is out of range and the method
panics (modelled as none). -/
theorem intSliceString_empty_panics :
    IntSliceString [] = none ∧ NonEmptyIntSliceString [] = none ∧
    StringSliceString [] = "" ∧
    IntSliceString [1, 2, 3] = some "1,2,3" ∧ StringSliceString ["a", "b"] = "a,b" :=
  ⟨by decide, by decide, by decide, by decide, by decide⟩

/-- C10: with an absent or empty enum tag, splitting the empty string on the
comma yields exactly one empty segment, so every non-empty raw value is
rejected with the invalid-enum-value error by both the plain and the required
enum parser, while the empty raw value still succeeds for the plain kind. -/
theorem asEnum_empty_enum_tag :
    goSplit "" ',' = [""] ∧
    (∀ s : String, s ≠ "" →
        asEnum s "" = .error (.invalidEnumValue s) ∧
        asNotEmptyEnum s "" = .error (.invalidEnumValue s)) ∧
    asEnum "" "" = .ok "" := by
  refine ⟨by decide, ?_, by decide⟩
  intro s hs
  have hsplit : goSplit "" ',' = [""] := by decide
  have hc : contains (goSplit "" ',') s = false := by
    rw [hsplit]
    simp [contains]
    exact fun h => hs h.symm
  refine ⟨?_, ?_⟩
  · simp [asEnum, hs, hc]
  · simp [asNotEmptyEnum, asNotEmpty, hs, asEnum, hc]

theorem asEnum_empty_enum_tag_witness :
    asEnum "x" "" = .error (.invalidEnumValue "x") ∧
    asNotEmptyEnum "x" "" = .error (.invalidEnumValue "x") :=
  asEnum_empty_enum_tag.2.1 "x" (by decide)

/-! ## Decimal round-trip lemmas (claim C4) -/

theorem decValLE_cons (d : Nat) (l : List Nat) : decValLE (d :: l) = decValLE l * 10 + d := rfl

theorem decValLE_decDigitsAux (fuel : Nat) :
    ∀ n : Nat, n ≤ fuel → decValLE (decDigitsAux fuel n) = n := by
  induction fuel with
  | zero =>
    intro n h
    have hn : n = 0 := Nat.le_zero.mp h
    subst hn
    rfl
  | succ fuel ih =>
    intro n h
    by_cases hn : n = 0
    · subst hn
      simp [decDigitsAux, decValLE]
    · have hdiv : n / 10 ≤ fuel := by
        have := Nat.div_lt_self (Nat.pos_of_ne_zero hn) (by omega : 1 < 10)
        omega
      rw [decDigitsAux]
      rw [if_neg hn]
      rw [decValLE_cons]
      rw [ih (n / 10) hdiv]
      omega

theorem decDigitsAux_lt_ten (fuel : Nat) :
    ∀ n : Nat, ∀ d ∈ decDigitsAux fuel n, d < 10 := by
  induction fuel with
  | zero =>
    intro n d hd
    simp [decDigitsAux] at hd
  | succ fuel ih =>
    intro n d hd
    by_cases hn : n = 0
    · subst hn
      simp [decDigitsAux] at hd
    · rw [decDigitsAux, if_neg hn] at hd
      rcases List.mem_cons.mp hd with h1 | h2
      · omega
      · exact ih (n / 10) d h2

theorem digitChar_toNat : ∀ d : Nat, d < 10 → (digitChar d).toNat = 48 + d := by decide

theorem digitChar_isDigit : ∀ d : Nat, d < 10 → isDigitChar (digitChar d) = true := by decide

theorem natDecChars_ne_nil (n : Nat) : natDecChars n ≠ [] := by
  unfold natDecChars
  by_cases hn : n = 0
  · simp [hn]
  · rw [if_neg hn]
    cases n with
    | zero => exact absurd rfl hn
    | succ m =>
      rw [decDigitsAux]
      rw [if_neg hn]
      simp

theorem natDecChars_digits (n : Nat) : ∀ c ∈ natDecChars n, isDigitChar c = true := by
  intro c hc
  unfold natDecChars at hc
  by_cases hn : n = 0
  · rw [if_pos hn] at hc
    rcases List.mem_singleton.mp hc with rfl
    decide
  · rw [if_neg hn] at hc
    rw [List.mem_reverse] at hc
    obtain ⟨d, hd, rfl⟩ := List.mem_map.mp hc
    exact digitChar_isDigit d (decDigitsAux_lt_ten n n d hd)

theorem digitsVal_mapped (l : List Nat) (hl : ∀ d ∈ l, d < 10) :
    digitsVal ((l.map digitChar).reverse) = decValLE l := by
  induction l with
  | nil => rfl
  | cons d ds ih =>
    have h1 := ih (fun x hx => hl x (List.mem_cons_of_mem d hx))
    simp only [List.map_cons, List.reverse_cons]
    unfold digitsVal at h1 ⊢
    rw [List.foldl_append]
    simp only [List.foldl_cons, List.foldl_nil]
    rw [h1]
    rw [decValLE_cons]
    rw [digitChar_toNat d (hl d (List.mem_cons_self d ds))]
    omega

theorem parseDigits_natDecChars (n : Nat) : parseDigits (natDecChars n) = some n := by
  have hne := natDecChars_ne_nil n
  have hdig := natDecChars_digits n
  have hc1 : (natDecChars n).isEmpty = false := by
    cases h : natDecChars n with
    | nil => exact absurd h hne
    | cons a l => rfl
  have hc2 : (natDecChars n).all isDigitChar = true := List.all_eq_true.mpr hdig
  unfold parseDigits
  rw [hc1, hc2]
  simp only [Bool.not_false, Bool.and_self, if_true]
  congr 1
  unfold natDecChars
  by_cases hn : n = 0
  · rw [if_pos hn]
    rw [hn]
    decide
  · rw [if_neg hn]
    rw [digitsVal_mapped _ (decDigitsAux_lt_ten n n)]
    exact decValLE_decDigitsAux n n le_rfl

theorem splitSign_minus (l : List Char) : splitSign ('-' :: l) = (true, l) := by
  simp only [splitSign]
  rw [if_pos (show ('-'.toNat = 45) by decide)]

theorem splitSign_digit (c : Char) (l : List Char) (h : isDigitChar c = true) :
    splitSign (c :: l) = (false, c :: l) := by
  have h48 : 48 ≤ c.toNat := by
    unfold isDigitChar at h
    simp only [Bool.and_eq_true, decide_eq_true_eq] at h
    exact h.1
  simp only [splitSign]
  rw [if_neg (by omega), if_neg (by omega)]

theorem asInt_goItoa (n : Int) (h1 : -(2 ^ 63) ≤ n) (h2 : n < 2 ^ 63) :
    asInt (goItoa n) = .ok n := by
  by_cases hneg : n < 0
  · have hdata : (goItoa n).data = '-' :: natDecChars (-n).toNat := by
      unfold goItoa
      rw [if_pos hneg]
    have hnonempty : goItoa n ≠ "" := by
      intro hc
      rw [hc] at hdata
      exact List.noConfusion hdata
    have hle : (-n).toNat ≤ 2 ^ 63 := by omega
    have hval : (-(((-n).toNat : Nat) : Int)) = n := by omega
    unfold asInt goAtoi
    rw [if_neg hnonempty, hdata, splitSign_minus]
    simp [parseDigits_natDecChars, hle, hval]
    rw [if_pos (show -n ≤ (9223372036854775808 : Int) by omega)]
    have hsup : -n ⊔ 0 = -n := sup_eq_left.mpr (by omega)
    rw [hsup]
    simp
  · have hdata : (goItoa n).data = natDecChars n.toNat := by
      unfold goItoa
      rw [if_neg hneg]
    have hnonempty : goItoa n ≠ "" := by
      intro hc
      rw [hc] at hdata
      exact natDecChars_ne_nil n.toNat hdata.symm
    have hle : n.toNat ≤ 2 ^ 63 - 1 := by omega
    have hval : ((n.toNat : Nat) : Int) = n := by omega
    obtain ⟨c, cs, hcs⟩ : ∃ c cs, natDecChars n.toNat = c :: cs := by
      cases h : natDecChars n.toNat with
      | nil => exact absurd h (natDecChars_ne_nil n.toNat)
      | cons a l => exact ⟨a, l, rfl⟩
    have hcdig : isDigitChar c = true :=
      natDecChars_digits n.toNat c (by rw [hcs]; exact List.mem_cons_self c cs)
    unfold asInt goAtoi
    rw [if_neg hnonempty, hdata, hcs, splitSign_digit c cs hcdig, ← hcs]
    simp [parseDigits_natDecChars, hle, hval]
    rw [if_pos (show n ≤ (9223372036854775807 : Int) by omega)]

theorem asInt_nonNumeric (s : String) (h1 : s ≠ "") (h2 : isIntLiteral s = false) :
    asInt s = .error (.invalidInteger s) := by
  have hp : parseDigits (splitSign s.data).2 = none := by
    unfold isIntLiteral at h2
    unfold parseDigits
    rw [h2]
    rfl
  unfold asInt goAtoi
  rw [if_neg h1, hp]

/-- C4: integer values render as their decimal digits (every character of the
rendering of a non-negative value is a decimal digit) and integer parsing
round-trips the rendering: for every integer representable in Go's 64-bit
int, parsing the rendered string returns that integer with no error, and
every non-empty input that is not a decimal integer literal fails with the
invalid-integer error. -/
theorem intString_roundtrip :
    (∀ n : Int, 0 ≤ n → ∀ c ∈ (IntString n).data, isDigitChar c = true) ∧
    (∀ n : Int, -(2 ^ 63) ≤ n → n < 2 ^ 63 → asInt (IntString n) = .ok n) ∧
    (∀ s : String, s ≠ "" → isIntLiteral s = false →
        asInt s = .error (.invalidInteger s)) := by
  refine ⟨?_, ?_, ?_⟩
  · intro n hn c hc
    unfold IntString goItoa at hc
    rw [if_neg (by omega : ¬ n < 0)] at hc
    exact natDecChars_digits n.toNat c hc
  · intro n hn1 hn2
    exact asInt_goItoa n hn1 hn2
  · intro s hs1 hs2
    exact asInt_nonNumeric s hs1 hs2

theorem intString_roundtrip_witness :
    asInt (IntString 123) = .ok 123 ∧ asInt (IntString (-7)) = .ok (-7) ∧
    asInt "hello" = .error (.invalidInteger "hello") :=
  ⟨intString_roundtrip.2.1 123 (by decide) (by decide),
   intString_roundtrip.2.1 (-7) (by decide) (by decide),
   intString_roundtrip.2.2 "hello" (by decide) (by decide)⟩

/-! ## URL model lemmas (claim C5): splitting -/

theorem splitFirst_not_mem (sep : Char) (l : List Char) (h : sep ∉ l) :
    splitFirst sep l = (l, none) := by
  induction l with
  | nil => rfl
  | cons c cs ih =>
    have hc : ¬ c = sep := fun he => h (he ▸ List.mem_cons_self c cs)
    have hcs : sep ∉ cs := fun hm => h (List.mem_cons_of_mem c hm)
    simp [splitFirst, hc, ih hcs]

theorem splitFirst_append (sep : Char) (l r : List Char) (h : sep ∉ l) :
    splitFirst sep (l ++ sep :: r) = (l, some r) := by
  induction l with
  | nil => simp [splitFirst]
  | cons c cs ih =>
    have hc : ¬ c = sep := fun he => h (he ▸ List.mem_cons_self c cs)
    have hcs : sep ∉ cs := fun hm => h (List.mem_cons_of_mem c hm)
    simp [splitFirst, hc, ih hcs]

theorem splitFirst_none (sep : Char) (l : List Char) :
    ∀ a, splitFirst sep l = (a, none) → l = a ∧ sep ∉ a := by
  induction l with
  | nil =>
    intro a h
    simp only [splitFirst, Prod.mk.injEq] at h
    obtain ⟨rfl, -⟩ := h
    exact ⟨rfl, by simp⟩
  | cons c cs ih =>
    intro a h
    by_cases hc : c = sep
    · simp only [splitFirst, if_pos hc, Prod.mk.injEq] at h
      exact absurd h.2 (by simp)
    · rcases hcs : splitFirst sep cs with ⟨a1, r1⟩
      simp only [splitFirst, if_neg hc, hcs, Prod.mk.injEq] at h
      obtain ⟨rfl, rfl⟩ := h
      obtain ⟨rfl, hmem⟩ := ih a1 hcs
      refine ⟨rfl, ?_⟩
      intro hm
      rcases List.mem_cons.mp hm with h1 | h2
      · exact hc h1.symm
      · exact hmem h2

theorem splitFirst_some (sep : Char) (l : List Char) :
    ∀ a r, splitFirst sep l = (a, some r) → l = a ++ sep :: r ∧ sep ∉ a := by
  induction l with
  | nil =>
    intro a r h
    simp only [splitFirst, Prod.mk.injEq] at h
    exact absurd h.2 (by simp)
  | cons c cs ih =>
    intro a r h
    by_cases hc : c = sep
    · simp only [splitFirst, if_pos hc, Prod.mk.injEq] at h
      obtain ⟨rfl, hr⟩ := h
      obtain rfl := Option.some.inj hr
      subst hc
      exact ⟨rfl, by simp⟩
    · rcases hcs : splitFirst sep cs with ⟨a1, r1⟩
      simp only [splitFirst, if_neg hc, hcs, Prod.mk.injEq] at h
      obtain ⟨rfl, hr⟩ := h
      cases r1 with
      | none => exact absurd hr (by simp)
      | some r2 =>
        obtain rfl := Option.some.inj hr
        obtain ⟨hdec, hmem⟩ := ih a1 r2 hcs
        refine ⟨by simp [hdec], ?_⟩
        intro hm
        rcases List.mem_cons.mp hm with h1 | h2
        · exact hc h1.symm
        · exact hmem h2

theorem splitLast_not_mem (sep : Char) (l : List Char) (h : sep ∉ l) :
    splitLast sep l = none := by
  unfold splitLast
  rw [splitFirst_not_mem sep l.reverse (by simpa using h)]

theorem splitLast_append (sep : Char) (l r : List Char) (h : sep ∉ r) :
    splitLast sep (l ++ sep :: r) = some (l, r) := by
  unfold splitLast
  have hrev : (l ++ sep :: r).reverse = r.reverse ++ sep :: l.reverse := by
    simp
  rw [hrev, splitFirst_append sep r.reverse l.reverse (by simpa using h)]
  simp

theorem splitLast_some (sep : Char) (l a b : List Char) (h : splitLast sep l = some (a, b)) :
    l = a ++ sep :: b ∧ sep ∉ b := by
  unfold splitLast at h
  rcases hsf : splitFirst sep l.reverse with ⟨x, y⟩
  rw [hsf] at h
  cases y with
  | none => simp at h
  | some r =>
    simp at h
    obtain ⟨rfl, rfl⟩ := h
    obtain ⟨hdec, hmem⟩ := splitFirst_some sep l.reverse x r hsf
    constructor
    · have := congrArg List.reverse hdec
      simpa using this
    · simpa using hmem

theorem splitLast_none (sep : Char) (l : List Char) (h : splitLast sep l = none) : sep ∉ l := by
  unfold splitLast at h
  rcases hsf : splitFirst sep l.reverse with ⟨x, y⟩
  rw [hsf] at h
  cases y with
  | none =>
    obtain ⟨hdec, hmem⟩ := splitFirst_none sep l.reverse x hsf
    intro hm
    exact hmem (hdec ▸ (List.mem_reverse.mpr hm))
  | some r => simp at h

/-! ## URL model lemmas: character classes and lowering -/

theorem toNat_ofNat_valid (n : Nat) (h : n.isValidChar) : (Char.ofNat n).toNat = n := by
  simp [Char.ofNat, h, Char.ofNatAux, Char.toNat, UInt32.toNat]

theorem char_eq_of_toNat_eq {c d : Char} (h : c.toNat = d.toNat) : c = d := by
  apply Char.ext
  apply UInt32.ext h

theorem toNat_toLowerChar (c : Char) :
    (toLowerChar c).toNat =
      if 65 ≤ c.toNat ∧ c.toNat ≤ 90 then c.toNat + 32 else c.toNat := by
  unfold toLowerChar
  split
  · rename_i h
    exact toNat_ofNat_valid (c.toNat + 32) (Or.inl (by omega))
  · rfl

theorem toLowerChar_idem (c : Char) : toLowerChar (toLowerChar c) = toLowerChar c := by
  apply char_eq_of_toNat_eq
  have h1 := toNat_toLowerChar c
  have h2 := toNat_toLowerChar (toLowerChar c)
  by_cases h : 65 ≤ c.toNat ∧ c.toNat ≤ 90
  · rw [if_pos h] at h1
    rw [h1] at h2
    rw [if_neg (by omega)] at h2
    rw [h2, h1]
  · rw [if_neg h] at h1
    rw [h1] at h2
    rw [if_neg h] at h2
    rw [h2, h1]

theorem map_toLowerChar_idem (l : List Char) :
    (l.map toLowerChar).map toLowerChar = l.map toLowerChar := by
  rw [List.map_map]
  apply List.map_congr_left
  intro c _
  exact toLowerChar_idem c

theorem isAlphaChar_iff (c : Char) :
    isAlphaChar c = true ↔ (65 ≤ c.toNat ∧ c.toNat ≤ 90) ∨ (97 ≤ c.toNat ∧ c.toNat ≤ 122) := by
  unfold isAlphaChar isUpperAlpha isLowerAlpha
  simp [Bool.or_eq_true, Bool.and_eq_true, decide_eq_true_eq]

theorem isDigitChar_iff (c : Char) :
    isDigitChar c = true ↔ 48 ≤ c.toNat ∧ c.toNat ≤ 57 := by
  unfold isDigitChar
  simp [Bool.and_eq_true, decide_eq_true_eq]

theorem isSchemeTailChar_iff (c : Char) :
    isSchemeTailChar c = true ↔
      (65 ≤ c.toNat ∧ c.toNat ≤ 90) ∨ (97 ≤ c.toNat ∧ c.toNat ≤ 122) ∨
        (48 ≤ c.toNat ∧ c.toNat ≤ 57) ∨ c.toNat = 43 ∨ c.toNat = 45 ∨ c.toNat = 46 := by
  unfold isSchemeTailChar
  rw [Bool.or_eq_true, Bool.or_eq_true, Bool.or_eq_true, Bool.or_eq_true]
  rw [isAlphaChar_iff, isDigitChar_iff]
  simp [decide_eq_true_eq]
  tauto

theorem isCtlChar_iff (c : Char) :
    isCtlChar c = true ↔ c.toNat < 32 ∨ c.toNat = 127 := by
  unfold isCtlChar
  simp [Bool.or_eq_true, decide_eq_true_eq]

theorem userinfo_range (c : Char) (h : isUserinfoChar c = true) :
    33 ≤ c.toNat ∧ c.toNat ≤ 126 := by
  unfold isUserinfoChar at h
  rw [Bool.or_eq_true, Bool.or_eq_true] at h
  rcases h with (h | h) | h
  · rw [isAlphaChar_iff] at h
    omega
  · rw [isDigitChar_iff] at h
    omega
  · simp at h
    omega

theorem isAlphaChar_toLowerChar (c : Char) (h : isAlphaChar c = true) :
    isAlphaChar (toLowerChar c) = true := by
  rw [isAlphaChar_iff] at h ⊢
  rw [toNat_toLowerChar]
  by_cases hc : 65 ≤ c.toNat ∧ c.toNat ≤ 90
  · rw [if_pos hc]
    omega
  · rw [if_neg hc]
    omega

theorem isSchemeTailChar_toLowerChar (c : Char) (h : isSchemeTailChar c = true) :
    isSchemeTailChar (toLowerChar c) = true := by
  rw [isSchemeTailChar_iff] at h ⊢
  rw [toNat_toLowerChar]
  by_cases hc : 65 ≤ c.toNat ∧ c.toNat ≤ 90
  · rw [if_pos hc]
    omega
  · rw [if_neg hc]
    omega

theorem schemeTail_not_ctl (c : Char) (h : isSchemeTailChar c = true) : isCtlChar c = false := by
  rw [Bool.eq_false_iff, Ne, isCtlChar_iff]
  rw [isSchemeTailChar_iff] at h
  omega

theorem schemeTail_ne_colon (c : Char) (h : isSchemeTailChar c = true) : ¬ c = ':' := by
  intro hc
  subst hc
  exact absurd h (by decide)

theorem schemeTail_ne_hash (c : Char) (h : isSchemeTailChar c = true) : ¬ c = '#' := by
  intro hc
  subst hc
  exact absurd h (by decide)

theorem userinfo_not_ctl (c : Char) (h : isUserinfoChar c = true) : isCtlChar c = false := by
  rw [Bool.eq_false_iff, Ne, isCtlChar_iff]
  have := userinfo_range c h
  omega

theorem userinfo_ne_slash (c : Char) (h : isUserinfoChar c = true) : ¬ c = '/' := by
  intro hc
  subst hc
  exact absurd h (by decide)

theorem userinfo_ne_query (c : Char) (h : isUserinfoChar c = true) : ¬ c = '?' := by
  intro hc
  subst hc
  exact absurd h (by decide)

theorem userinfo_ne_hash (c : Char) (h : isUserinfoChar c = true) : ¬ c = '#' := by
  intro hc
  subst hc
  exact absurd h (by decide)

/-! ## URL model lemmas: scheme scanning -/

theorem isEmpty_false_of_ne_nil {a : Type} {l : List a} (h : l ≠ []) : l.isEmpty = false := by
  cases l with
  | nil => exact absurd rfl h
  | cons x t => rfl

theorem alpha_schemeTail (c : Char) (h : isAlphaChar c = true) : isSchemeTailChar c = true := by
  rw [isSchemeTailChar_iff]
  rw [isAlphaChar_iff] at h
  omega

theorem schemeTailChar_of_cond (c : Char)
    (h : (isDigitChar c || decide (c.toNat = 43) || decide (c.toNat = 45) ||
      decide (c.toNat = 46)) = true) : isSchemeTailChar c = true := by
  rw [isSchemeTailChar_iff]
  simp only [Bool.or_eq_true, decide_eq_true_eq] at h
  rcases h with ((hd | h1) | h2) | h3
  · rw [isDigitChar_iff] at hd
    omega
  · omega
  · omega
  · omega

theorem schemeTail_split (c : Char) (h : isSchemeTailChar c = true)
    (hna : ¬ isAlphaChar c = true) :
    (isDigitChar c || decide (c.toNat = 43) || decide (c.toNat = 45) ||
      decide (c.toNat = 46)) = true := by
  unfold isSchemeTailChar at h
  simp only [Bool.or_eq_true] at h ⊢
  tauto

theorem getSchemeAux_complete (orig rest : List Char) :
    ∀ sch : List Char, (∀ c ∈ sch, isSchemeTailChar c = true) →
      ∀ acc : List Char, acc ≠ [] →
        getSchemeAux orig acc (sch ++ ':' :: rest) = some (acc.reverse ++ sch, rest) := by
  intro sch
  induction sch with
  | nil =>
    intro _ acc hacc
    simp only [List.nil_append, getSchemeAux]
    rw [if_neg (by decide : ¬ isAlphaChar ':' = true)]
    rw [if_neg (by decide :
      ¬ (isDigitChar ':' || decide (':'.toNat = 43) || decide (':'.toNat = 45) ||
        decide (':'.toNat = 46)) = true)]
    simp only [if_true]
    rw [isEmpty_false_of_ne_nil hacc]
    simp
  | cons c cs ih =>
    intro hsch acc hacc
    have hc : isSchemeTailChar c = true := hsch c (List.mem_cons_self c cs)
    have hcs : ∀ x ∈ cs, isSchemeTailChar x = true :=
      fun x hx => hsch x (List.mem_cons_of_mem c hx)
    simp only [List.cons_append, getSchemeAux, List.append_eq]
    by_cases hca : isAlphaChar c = true
    · rw [if_pos hca]
      rw [ih hcs (c :: acc) (List.cons_ne_nil c acc)]
      simp
    · rw [if_neg hca]
      rw [if_pos (schemeTail_split c hc hca)]
      rw [isEmpty_false_of_ne_nil hacc]
      simp only [Bool.false_eq_true, if_false]
      rw [ih hcs (c :: acc) (List.cons_ne_nil c acc)]
      simp

theorem getSchemeAux_sound (orig : List Char) :
    ∀ l acc sch rest : List Char,
      getSchemeAux orig acc l = some (sch, rest) → sch ≠ [] →
      (∀ c ∈ acc, isSchemeTailChar c = true) →
      (acc = [] ∨ ∃ c t, acc.reverse = c :: t ∧ isAlphaChar c = true) →
      (∃ pre, l = pre ++ ':' :: rest ∧ sch = acc.reverse ++ pre) ∧
        (∀ c ∈ sch, isSchemeTailChar c = true) ∧
        (∃ c t, sch = c :: t ∧ isAlphaChar c = true) := by
  intro l
  induction l with
  | nil =>
    intro acc sch rest h hne _ _
    simp only [getSchemeAux] at h
    obtain ⟨h1, -⟩ := Prod.mk.injEq .. ▸ Option.some.inj h
    exact absurd h1.symm hne
  | cons c cs ih =>
    intro acc sch rest h hne haccchars haccshape
    simp only [getSchemeAux] at h
    by_cases hca : isAlphaChar c = true
    · rw [if_pos hca] at h
      have hchars' : ∀ x ∈ c :: acc, isSchemeTailChar x = true := by
        intro x hx
        rcases List.mem_cons.mp hx with rfl | hx2
        · exact alpha_schemeTail x hca
        · exact haccchars x hx2
      have hshape' : (c :: acc) = [] ∨
          ∃ d t, (c :: acc).reverse = d :: t ∧ isAlphaChar d = true := by
        right
        rcases haccshape with rfl | ⟨d, t, hdt, hda⟩
        · exact ⟨c, [], by simp, hca⟩
        · exact ⟨d, t ++ [c], by simp [hdt], hda⟩
      obtain ⟨⟨pre, hdec, hsch⟩, hchars, hhead⟩ := ih (c :: acc) sch rest h hne hchars' hshape'
      exact ⟨⟨c :: pre, by simp [hdec], by simp [hsch]⟩, hchars, hhead⟩
    · rw [if_neg hca] at h
      by_cases hcd : (isDigitChar c || decide (c.toNat = 43) || decide (c.toNat = 45) ||
          decide (c.toNat = 46)) = true
      · rw [if_pos hcd] at h
        by_cases hacc : acc.isEmpty = true
        · rw [if_pos hacc] at h
          obtain ⟨h1, -⟩ := Prod.mk.injEq .. ▸ Option.some.inj h
          exact absurd h1.symm hne
        · rw [if_neg hacc] at h
          have haccne : acc ≠ [] := by
            intro hc0
            exact hacc (by rw [hc0]; rfl)
          have hchars' : ∀ x ∈ c :: acc, isSchemeTailChar x = true := by
            intro x hx
            rcases List.mem_cons.mp hx with rfl | hx2
            · exact schemeTailChar_of_cond x hcd
            · exact haccchars x hx2
          have hshape' : (c :: acc) = [] ∨
              ∃ d t, (c :: acc).reverse = d :: t ∧ isAlphaChar d = true := by
            right
            rcases haccshape with rfl | ⟨d, t, hdt, hda⟩
            · exact absurd rfl haccne
            · exact ⟨d, t ++ [c], by simp [hdt], hda⟩
          obtain ⟨⟨pre, hdec, hsch⟩, hchars, hhead⟩ :=
            ih (c :: acc) sch rest h hne hchars' hshape'
          exact ⟨⟨c :: pre, by simp [hdec], by simp [hsch]⟩, hchars, hhead⟩
      · rw [if_neg hcd] at h
        by_cases hcc : c = ':'
        · rw [if_pos hcc] at h
          by_cases hacc : acc.isEmpty = true
          · rw [if_pos hacc] at h
            cases h
          · rw [if_neg hacc] at h
            have haccne : acc ≠ [] := by
              intro hc0
              exact hacc (by rw [hc0]; rfl)
            obtain ⟨h1, h2⟩ := Prod.mk.injEq .. ▸ Option.some.inj h
            refine ⟨⟨[], by simp [hcc, h2], by simp [h1]⟩, ?_, ?_⟩
            · intro x hx
              rw [← h1] at hx
              exact haccchars x (List.mem_reverse.mp hx)
            · rcases haccshape with rfl | ⟨d, t, hdt, hda⟩
              · exact absurd rfl haccne
              · exact ⟨d, t, by rw [← h1, hdt], hda⟩
        · rw [if_neg hcc] at h
          obtain ⟨h1, -⟩ := Prod.mk.injEq .. ▸ Option.some.inj h
          exact absurd h1.symm hne

theorem getScheme_sound (s sch rest : List Char) (h : getScheme s = some (sch, rest))
    (hne : sch ≠ []) :
    s = sch ++ ':' :: rest ∧ (∀ c ∈ sch, isSchemeTailChar c = true) ∧
      ∃ c t, sch = c :: t ∧ isAlphaChar c = true := by
  obtain ⟨⟨pre, hdec, hsch⟩, hchars, hhead⟩ :=
    getSchemeAux_sound s s [] sch rest h hne (by intro c hc; cases hc) (.inl rfl)
  simp only [List.reverse_nil, List.nil_append] at hsch
  subst hsch
  exact ⟨hdec, hchars, hhead⟩

theorem getScheme_complete (sch rest : List Char) (hne : sch ≠ [])
    (hhead : ∃ c t, sch = c :: t ∧ isAlphaChar c = true)
    (hchars : ∀ c ∈ sch, isSchemeTailChar c = true) :
    getScheme (sch ++ ':' :: rest) = some (sch, rest) := by
  obtain ⟨c, t, rfl, hca⟩ := hhead
  unfold getScheme
  simp only [List.cons_append, getSchemeAux, List.append_eq]
  rw [if_pos hca]
  rw [getSchemeAux_complete _ rest t (fun x hx => hchars x (List.mem_cons_of_mem c hx)) [c]
    (List.cons_ne_nil c [])]
  simp

/-! ## URL model lemmas: query and authority -/

theorem splitQuery_spec (rest0 a : List Char) (fq : Bool) (q : List Char)
    (h : splitQuery rest0 = (a, fq, q)) :
    '?' ∉ a ∧
      ((fq = true ∧ q = [] ∧ rest0 = a ++ ['?']) ∨
        (fq = false ∧ ((q = [] ∧ rest0 = a) ∨ rest0 = a ++ '?' :: q))) := by
  unfold splitQuery at h
  split at h
  · rename_i hcond
    obtain ⟨hlast, hnm⟩ := hcond
    simp only [Prod.mk.injEq] at h
    obtain ⟨rfl, rfl, rfl⟩ := h
    have hne : rest0 ≠ [] := by
      intro h0
      rw [h0] at hlast
      cases hlast
    refine ⟨hnm, .inl ⟨rfl, rfl, ?_⟩⟩
    have hgl : rest0.getLast hne = '?' := by
      have hh := List.getLast?_eq_getLast rest0 hne
      rw [hh] at hlast
      exact Option.some.inj hlast
    have hdl := List.dropLast_append_getLast hne
    rw [hgl] at hdl
    exact hdl.symm
  · rcases hsf : splitFirst '?' rest0 with ⟨a1, r1⟩
    rw [hsf] at h
    cases r1 with
    | none =>
      obtain ⟨hdec, hmem⟩ := splitFirst_none '?' rest0 a1 hsf
      simp only [Prod.mk.injEq] at h
      obtain ⟨h1, h2, h3⟩ := h
      subst h1
      subst h2
      subst h3
      exact ⟨hmem, .inr ⟨rfl, .inl ⟨rfl, hdec⟩⟩⟩
    | some q1 =>
      obtain ⟨hdec, hmem⟩ := splitFirst_some '?' rest0 a1 q1 hsf
      simp only [Prod.mk.injEq] at h
      obtain ⟨h1, h2, h3⟩ := h
      subst h1
      subst h2
      subst h3
      exact ⟨hmem, .inr ⟨rfl, .inr hdec⟩⟩

theorem parseAuthority_spec (auth : List Char) (user : Option (List Char)) (host : List Char)
    (h : parseAuthority auth = some (user, host)) :
    parseHostOK host = true ∧
      ((user = none ∧ auth = host ∧ '@' ∉ host) ∨
        (∃ ui, user = some ui ∧ auth = ui ++ '@' :: host ∧ '@' ∉ host ∧
          ∀ c ∈ ui, isUserinfoChar c = true)) := by
  unfold parseAuthority at h
  rcases hsl : splitLast '@' auth with _ | ⟨ui, hst⟩
  · rw [hsl] at h
    by_cases hok : parseHostOK auth = true
    · rw [if_pos hok] at h
      simp only [Option.some.injEq, Prod.mk.injEq] at h
      obtain ⟨h1, h2⟩ := h
      subst h1
      subst h2
      exact ⟨hok, .inl ⟨rfl, rfl, splitLast_none '@' auth hsl⟩⟩
    · rw [if_neg hok] at h
      cases h
  · rw [hsl] at h
    dsimp only at h
    by_cases hok : parseHostOK hst = true
    · rw [if_pos hok] at h
      by_cases hui : ui.all isUserinfoChar = true
      · rw [if_pos hui] at h
        simp only [Option.some.injEq, Prod.mk.injEq] at h
        obtain ⟨h1, h2⟩ := h
        subst h1
        subst h2
        obtain ⟨hdec, hmem⟩ := splitLast_some '@' auth ui hst hsl
        exact ⟨hok, .inr ⟨ui, rfl, hdec, hmem, fun c hc => List.all_eq_true.mp hui c hc⟩⟩
      · rw [if_neg hui] at h
        cases h
    · rw [if_neg hok] at h
      cases h

-- Well-formedness invariants that the parser establishes on every URL it
-- returns with a scheme and a host; they are exactly what makes the rendering
-- of such a URL parse back to the same record.
structure URLWF (u : GoURL) : Prop where
  scheme_ne : u.scheme ≠ []
  scheme_head : ∃ c t, u.scheme = c :: t ∧ isAlphaChar c = true
  scheme_chars : ∀ c ∈ u.scheme, isSchemeTailChar c = true
  scheme_lower : u.scheme.map toLowerChar = u.scheme
  opq_nil : u.opq = []
  host_ne : u.host ≠ []
  host_ok : parseHostOK u.host = true
  host_no_at : '@' ∉ u.host
  host_no_slash : '/' ∉ u.host
  host_no_query : '?' ∉ u.host
  host_no_hash : '#' ∉ u.host
  host_no_ctl : ∀ c ∈ u.host, isCtlChar c = false
  user_chars : ∀ ui, u.user = some ui → ∀ c ∈ ui, isUserinfoChar c = true
  path_shape : u.path = [] ∨ ∃ t, u.path = '/' :: t
  path_no_query : '?' ∉ u.path
  path_no_hash : '#' ∉ u.path
  path_no_ctl : ∀ c ∈ u.path, isCtlChar c = false
  query_no_hash : '#' ∉ u.rawQuery
  query_no_ctl : ∀ c ∈ u.rawQuery, isCtlChar c = false
  force_query : u.forceQuery = true → u.rawQuery = []

/-! ## URL model lemmas: parse results are well-formed -/

theorem take_two_eq (l : List Char) (a b : Char) (h : l.take 2 = [a, b]) :
    l = a :: b :: l.drop 2 := by
  cases l with
  | nil => cases h
  | cons x xs =>
    cases xs with
    | nil => simp [List.take] at h
    | cons y ys =>
      simp [List.take] at h
      obtain ⟨rfl, rfl⟩ := h
      rfl

theorem all_not_of_any_false {p : Char → Bool} {l : List Char} (h : l.any p = false) :
    ∀ c ∈ l, p c = false := by
  intro c hc
  cases hb : p c with
  | false => rfl
  | true => exact absurd (List.any_eq_true.mpr ⟨c, hc, hb⟩) (by rw [h]; simp)

theorem splitFirst_fst_facts (sep : Char) (x auth : List Char) (pr : Option (List Char))
    (hcut : splitFirst sep x = (auth, pr)) : sep ∉ auth ∧ ∀ c ∈ auth, c ∈ x := by
  cases pr with
  | none =>
    obtain ⟨hdec, hmem⟩ := splitFirst_none sep x auth hcut
    exact ⟨hmem, fun c hc => by rw [hdec]; exact hc⟩
  | some r =>
    obtain ⟨hdec, hmem⟩ := splitFirst_some sep x auth r hcut
    exact ⟨hmem, fun c hc => by rw [hdec]; simp [hc]⟩

theorem splitFirst_tail_shape (x auth : List Char) (pr : Option (List Char))
    (hcut : splitFirst '/' x = (auth, pr)) :
    (optSlash pr = [] ∨ ∃ t, optSlash pr = '/' :: t) ∧
      ∀ c ∈ optSlash pr, c = '/' ∨ c ∈ x := by
  cases pr with
  | none =>
    refine ⟨.inl rfl, ?_⟩
    intro c hc
    cases hc
  | some r =>
    obtain ⟨hdec2, -⟩ := splitFirst_some '/' x auth r hcut
    refine ⟨.inr ⟨r, rfl⟩, ?_⟩
    intro c hc
    rcases List.mem_cons.mp hc with rfl | hc2
    · exact .inl rfl
    · right
      rw [hdec2]
      simp [hc2]

theorem urlParseCore_wf (s : List Char) (u : GoURL) (h : urlParseCore s = some u)
    (hnh : '#' ∉ s) (hsch : u.scheme ≠ []) (hhost : u.host ≠ []) :
    URLWF u ∧ u.fragment = [] := by
  unfold urlParseCore at h
  by_cases hctl : s.any isCtlChar = true
  · rw [if_pos hctl] at h
    cases h
  · rw [if_neg hctl] at h
    have hany : s.any isCtlChar = false := by
      cases hb : s.any isCtlChar with
      | false => rfl
      | true => exact absurd hb hctl
    have hctl' : ∀ c ∈ s, isCtlChar c = false := all_not_of_any_false hany
    by_cases hstar : s = ['*']
    · rw [if_pos hstar] at h
      obtain rfl := Option.some.inj h
      exact absurd rfl hsch
    · rw [if_neg hstar] at h
      rcases hgs : getScheme s with _ | ⟨sch, rest0⟩
      · rw [hgs] at h
        cases h
      · rw [hgs] at h
        dsimp only at h
        rcases hsq : splitQuery rest0 with ⟨rest, fq, rq⟩
        rw [hsq] at h
        dsimp only at h
        by_cases hb1 : rest.head? ≠ some '/' ∧ sch.map toLowerChar ≠ []
        · rw [if_pos hb1] at h
          obtain rfl := Option.some.inj h
          exact absurd rfl hhost
        · rw [if_neg hb1] at h
          by_cases hb2 : rest.head? ≠ some '/' ∧
              ((rest.takeWhile fun c => ¬ c = '/').any fun c => c = ':') = true
          · rw [if_pos hb2] at h
            cases h
          · rw [if_neg hb2] at h
            by_cases hb3 : (sch.map toLowerChar ≠ [] ∨ rest.take 3 ≠ ['/', '/', '/']) ∧
                rest.take 2 = ['/', '/']
            · rw [if_pos hb3] at h
              rcases hcut : splitFirst '/' (rest.drop 2) with ⟨auth, pr⟩
              rw [hcut] at h
              dsimp only at h
              rcases hpa : parseAuthority auth with _ | ⟨user1, host1⟩
              · rw [hpa] at h
                cases h
              · rw [hpa] at h
                dsimp only at h
                obtain rfl := Option.some.inj h
                have hschne : sch ≠ [] := by
                  intro h0
                  exact hsch (by rw [h0]; rfl)
                obtain ⟨hdec, hchars, hhead⟩ := getScheme_sound s sch rest0 hgs hschne
                obtain ⟨hqa, hqcases⟩ := splitQuery_spec rest0 rest fq rq hsq
                obtain ⟨hhostok, husr⟩ := parseAuthority_spec auth user1 host1 hpa
                -- membership chains
                have hrest0_sub : ∀ c ∈ rest0, c ∈ s := by
                  intro c hc
                  rw [hdec]
                  simp [hc]
                have hrest_sub : ∀ c ∈ rest, c ∈ rest0 := by
                  intro c hc
                  rcases hqcases with ⟨-, -, hr0⟩ | ⟨-, ⟨-, hr0⟩ | hr0⟩ <;> rw [hr0] <;> simp [hc]
                have hrq_sub : ∀ c ∈ rq, c ∈ rest0 := by
                  intro c hc
                  rcases hqcases with ⟨-, hq0, -⟩ | ⟨-, ⟨hq0, -⟩ | hr0⟩
                  · rw [hq0] at hc
                    cases hc
                  · rw [hq0] at hc
                    cases hc
                  · rw [hr0]
                    simp [hc]
                have hdrop_sub : ∀ c ∈ rest.drop 2, c ∈ rest :=
                  fun c hc => List.mem_of_mem_drop hc
                obtain ⟨hauth_no_slash, hauth_sub⟩ :=
                  splitFirst_fst_facts '/' (rest.drop 2) auth pr hcut
                have hhost_sub : ∀ c ∈ host1, c ∈ auth := by
                  rcases husr with ⟨-, ha0, -⟩ | ⟨ui, -, ha0, -, -⟩
                  · intro c hc
                    rw [ha0]
                    exact hc
                  · intro c hc
                    rw [ha0]
                    simp [hc]
                have hhost_s : ∀ c ∈ host1, c ∈ s :=
                  fun c hc =>
                    hrest0_sub c (hrest_sub c (hdrop_sub c (hauth_sub c (hhost_sub c hc))))
                obtain ⟨hPshape, hPmem⟩ := splitFirst_tail_shape (rest.drop 2) auth pr hcut
                have hP_s : ∀ c ∈ optSlash pr, c = '/' ∨ c ∈ s := by
                  intro c hc
                  rcases hPmem c hc with h0 | h0
                  · exact .inl h0
                  · exact .inr (hrest0_sub c (hrest_sub c (hdrop_sub c h0)))
                refine ⟨⟨hsch, ?_, ?_, map_toLowerChar_idem sch, rfl, hhost, hhostok, ?_, ?_,
                  ?_, ?_, ?_, ?_, hPshape, ?_, ?_, ?_, ?_, ?_, ?_⟩, rfl⟩
                · obtain ⟨c, t, hct, hca⟩ := hhead
                  exact ⟨toLowerChar c, t.map toLowerChar, by rw [hct]; rfl,
                    isAlphaChar_toLowerChar c hca⟩
                · intro c hc
                  obtain ⟨d, hd, rfl⟩ := List.mem_map.mp hc
                  exact isSchemeTailChar_toLowerChar d (hchars d hd)
                · rcases husr with ⟨-, -, hna⟩ | ⟨ui, -, -, hna, -⟩ <;> exact hna
                · intro hm
                  exact hauth_no_slash (hhost_sub '/' hm)
                · intro hm
                  exact hqa (hdrop_sub '?' (hauth_sub '?' (hhost_sub '?' hm)))
                · intro hm
                  exact hnh (hhost_s '#' hm)
                · intro c hc
                  exact hctl' c (hhost_s c hc)
                · intro ui0 h0
                  rcases husr with ⟨hn0, -, -⟩ | ⟨ui, hu0, -, -, huc⟩
                  · rw [hn0] at h0
                    cases h0
                  · rw [hu0] at h0
                    obtain rfl := Option.some.inj h0
                    exact huc
                · intro hm
                  rcases hPmem '?' hm with h0 | h0
                  · cases h0
                  · exact hqa (hdrop_sub '?' h0)
                · intro hm
                  rcases hP_s '#' hm with h0 | h0
                  · cases h0
                  · exact hnh h0
                · intro c hc
                  rcases hP_s c hc with rfl | h0
                  · decide
                  · exact hctl' c h0
                · intro hm
                  exact hnh (hrest0_sub '#' (hrq_sub '#' hm))
                · intro c hc
                  exact hctl' c (hrest0_sub c (hrq_sub c hc))
                · intro hfq
                  rcases hqcases with ⟨-, hq0, -⟩ | ⟨hf0, -⟩
                  · exact hq0
                  · subst hf0
                    exact Bool.noConfusion hfq
            · rw [if_neg hb3] at h
              obtain rfl := Option.some.inj h
              exact absurd rfl hhost

/-! ## URL model lemmas: rendering parses back -/

theorem userPart_facts (uo : Option (List Char))
    (hc : ∀ ui, uo = some ui → ∀ c ∈ ui, isUserinfoChar c = true) :
    '/' ∉ userPart uo ∧ '?' ∉ userPart uo ∧ '#' ∉ userPart uo ∧
      ∀ c ∈ userPart uo, isCtlChar c = false := by
  cases uo with
  | none =>
    refine ⟨by simp [userPart], by simp [userPart], by simp [userPart], ?_⟩
    intro c hc2
    simp [userPart] at hc2
  | some ui =>
    have hui := hc ui rfl
    have hmem : ∀ c ∈ userPart (some ui), c ∈ ui ∨ c = '@' := by
      intro c hc2
      simp only [userPart] at hc2
      rcases List.mem_append.mp hc2 with h0 | h0
      · exact .inl h0
      · exact .inr (List.mem_singleton.mp h0)
    refine ⟨?_, ?_, ?_, ?_⟩
    · intro hm
      rcases hmem '/' hm with h0 | h0
      · exact userinfo_ne_slash '/' (hui '/' h0) rfl
      · cases h0
    · intro hm
      rcases hmem '?' hm with h0 | h0
      · exact userinfo_ne_query '?' (hui '?' h0) rfl
      · cases h0
    · intro hm
      rcases hmem '#' hm with h0 | h0
      · exact userinfo_ne_hash '#' (hui '#' h0) rfl
      · cases h0
    · intro c hc2
      rcases hmem c hc2 with h0 | h0
      · exact userinfo_not_ctl c (hui c h0)
      · rw [h0]
        decide

theorem splitQuery_render (stuff rq : List Char) (fq : Bool)
    (hq : '?' ∉ stuff) (hfq : fq = true → rq = []) :
    splitQuery (stuff ++ (if fq || !rq.isEmpty then '?' :: rq else [])) = (stuff, fq, rq) := by
  cases fq with
  | true =>
    have hrq := hfq rfl
    subst hrq
    simp only [Bool.true_or, if_true]
    unfold splitQuery
    rw [if_pos ?hcond]
    case hcond =>
      constructor
      · exact List.getLast?_concat stuff
      · rw [List.dropLast_concat]
        exact hq
    rw [List.dropLast_concat]
  | false =>
    cases hrq : rq with
    | nil =>
      simp only [List.isEmpty_nil, Bool.not_true, Bool.false_or, Bool.false_eq_true, if_false,
        List.append_nil]
      unfold splitQuery
      rw [if_neg ?hcond2]
      case hcond2 =>
        intro hcc
        obtain ⟨h1, -⟩ := hcc
        have h1m : '?' ∈ stuff.getLast? := by rw [h1]; rfl
        obtain ⟨hne0, heq⟩ := List.mem_getLast?_eq_getLast h1m
        apply hq
        rw [heq]
        exact List.getLast_mem hne0
      rw [splitFirst_not_mem '?' stuff hq]
    | cons q0 qt =>
      have hne : (q0 :: qt) ≠ ([] : List Char) := List.cons_ne_nil q0 qt
      simp only [List.isEmpty_cons, Bool.not_false, Bool.false_or, if_true]
      unfold splitQuery
      rw [if_neg ?hcond3]
      case hcond3 =>
        intro hcc
        obtain ⟨-, h2⟩ := hcc
        apply h2
        rw [List.dropLast_append_of_ne_nil _ (List.cons_ne_nil '?' (q0 :: qt))]
        simp
      rw [splitFirst_append '?' stuff (q0 :: qt) hq]

theorem parseAuthority_render (uo : Option (List Char)) (host : List Char)
    (hc : ∀ ui, uo = some ui → ∀ c ∈ ui, isUserinfoChar c = true)
    (hat : '@' ∉ host) (hok : parseHostOK host = true) :
    parseAuthority (userPart uo ++ host) = some (uo, host) := by
  cases uo with
  | none =>
    simp only [userPart, List.nil_append]
    unfold parseAuthority
    rw [splitLast_not_mem '@' host hat]
    rw [if_pos hok]
  | some ui =>
    have hui : ui.all isUserinfoChar = true := List.all_eq_true.mpr (hc ui rfl)
    have hshape : userPart (some ui) ++ host = ui ++ '@' :: host := by
      simp [userPart]
    rw [hshape]
    unfold parseAuthority
    rw [splitLast_append '@' ui host hat]
    dsimp only
    rw [if_pos hok, if_pos hui]

theorem urlRender_eq (u : GoURL) (h : URLWF u) :
    urlRender u = u.scheme ++ ':' :: '/' :: '/' ::
      (userPart u.user ++ u.host ++ u.path ++
        (if u.forceQuery || !u.rawQuery.isEmpty then '?' :: u.rawQuery else []) ++
        (if !u.fragment.isEmpty then '#' :: u.fragment else [])) := by
  have hs : u.scheme.isEmpty = false := isEmpty_false_of_ne_nil h.scheme_ne
  have hh : u.host.isEmpty = false := isEmpty_false_of_ne_nil h.host_ne
  have hslash :
      (!u.path.isEmpty && decide (u.path.head? ≠ some '/') && true) = false := by
    rcases h.path_shape with hp | ⟨t, hp⟩
    · rw [hp]
      rfl
    · rw [hp]
      simp
  unfold urlRender
  rw [h.opq_nil]
  rw [hs, hh]
  simp only [List.isEmpty_nil, Bool.not_true, Bool.not_false, Bool.true_or, Bool.false_eq_true,
    if_false, if_true, Bool.true_and]
  rw [hslash]
  simp only [Bool.false_eq_true, if_false, List.append_nil, List.nil_append]
  have hne2 : ¬ ((u.scheme ++ [':']) ++ (['/', '/'] ++ userPart u.user ++ u.host)).isEmpty
      = true := by
    rw [List.isEmpty_iff]
    intro h0
    rcases List.append_eq_nil.mp h0 with ⟨h1, -⟩
    rcases List.append_eq_nil.mp h1 with ⟨-, h2⟩
    cases h2
  rw [if_neg ?hcond4]
  case hcond4 =>
    intro hcc
    rw [Bool.and_eq_true] at hcc
    exact hne2 hcc.1
  simp [List.append_assoc]

theorem urlParseCore_render (u : GoURL) (h : URLWF u) (hf : u.fragment = []) :
    urlParseCore (urlRender u) = some u := by
  obtain ⟨usch, uopq, uusr, uhost, upath, ufq, urq, ufrag⟩ := u
  have hfrag : ufrag = [] := hf
  subst hfrag
  have hopq : uopq = [] := h.opq_nil
  subst hopq
  have hscheme_ne : usch ≠ [] := h.scheme_ne
  have hlower : usch.map toLowerChar = usch := h.scheme_lower
  have hchars : ∀ c ∈ usch, isSchemeTailChar c = true := h.scheme_chars
  obtain ⟨c0, t0, hsch0, hca0⟩ :
      ∃ c t, usch = c :: t ∧ isAlphaChar c = true := h.scheme_head
  have hhost_ne : uhost ≠ [] := h.host_ne
  have hhost_ok : parseHostOK uhost = true := h.host_ok
  have hhost_at : '@' ∉ uhost := h.host_no_at
  have hhost_slash : '/' ∉ uhost := h.host_no_slash
  have hhost_query : '?' ∉ uhost := h.host_no_query
  have hhost_ctl : ∀ c ∈ uhost, isCtlChar c = false := h.host_no_ctl
  have huser : ∀ ui, uusr = some ui → ∀ c ∈ ui, isUserinfoChar c = true := h.user_chars
  have hpath_shape : upath = [] ∨ ∃ t, upath = '/' :: t := h.path_shape
  have hpath_query : '?' ∉ upath := h.path_no_query
  have hpath_ctl : ∀ c ∈ upath, isCtlChar c = false := h.path_no_ctl
  have hquery_ctl : ∀ c ∈ urq, isCtlChar c = false := h.query_no_ctl
  have hforce : ufq = true → urq = [] := h.force_query
  obtain ⟨hu_slash, hu_query, hu_hash, hu_ctl⟩ := userPart_facts uusr huser
  rw [urlRender_eq _ h]
  dsimp only
  simp only [List.isEmpty_nil, Bool.not_true, Bool.false_eq_true, if_false, List.append_nil]
  have hQmem : ∀ c ∈ (if ufq || !urq.isEmpty then '?' :: urq else []), c = '?' ∨ c ∈ urq := by
    intro c hc
    split at hc
    · rcases List.mem_cons.mp hc with rfl | h0
      · exact .inl rfl
      · exact .inr h0
    · cases hc
  have hctlall : (usch ++ ':' :: '/' :: '/' ::
      (userPart uusr ++ uhost ++ upath ++
        (if ufq || !urq.isEmpty then '?' :: urq else []))).any isCtlChar = false := by
    rw [List.any_eq_false]
    intro c hc
    simp only [List.mem_append, List.mem_cons] at hc
    have hcf : isCtlChar c = false := by
      rcases hc with h0 | rfl | rfl | rfl | ((h0 | h0) | h0) | h0
      · exact schemeTail_not_ctl c (hchars c h0)
      · decide
      · decide
      · decide
      · exact hu_ctl c h0
      · exact hhost_ctl c h0
      · exact hpath_ctl c h0
      · rcases hQmem c h0 with rfl | h1
        · decide
        · exact hquery_ctl c h1
    simp [hcf]
  have hstar : (usch ++ ':' :: '/' :: '/' ::
      (userPart uusr ++ uhost ++ upath ++
        (if ufq || !urq.isEmpty then '?' :: urq else []))) ≠ ['*'] := by
    rw [hsch0, List.cons_append]
    intro he
    injection he with h1 h2
    subst h1
    exact absurd hca0 (by decide)
  have hstuff_q : '?' ∉ ('/' :: '/' :: (userPart uusr ++ uhost ++ upath) : List Char) := by
    intro hm
    rcases List.mem_cons.mp hm with h0 | hm2
    · cases h0
    rcases List.mem_cons.mp hm2 with h0 | hm3
    · cases h0
    rcases List.mem_append.mp hm3 with h0 | h0
    · rcases List.mem_append.mp h0 with h1 | h1
      · exact hu_query h1
      · exact hhost_query h1
    · exact hpath_query h0
  have hUH : '/' ∉ userPart uusr ++ uhost := by
    intro hm
    rcases List.mem_append.mp hm with h0 | h0
    · exact hu_slash h0
    · exact hhost_slash h0
  have hsplit : ∃ pr, splitFirst '/' (userPart uusr ++ uhost ++ upath) =
      (userPart uusr ++ uhost, pr) ∧ optSlash pr = upath := by
    rcases hpath_shape with hp | ⟨t, hp⟩
    · refine ⟨none, ?_, ?_⟩
      · rw [hp, List.append_nil]
        exact splitFirst_not_mem '/' _ hUH
      · rw [hp]
        rfl
    · refine ⟨some t, ?_, ?_⟩
      · rw [hp]
        exact splitFirst_append '/' _ t hUH
      · rw [hp]
        rfl
  obtain ⟨pr0, hsf, hopt⟩ := hsplit
  unfold urlParseCore
  rw [hctlall]
  simp only [Bool.false_eq_true, if_false]
  rw [if_neg hstar]
  have hassoc : (usch ++ ':' :: '/' :: '/' ::
      (userPart uusr ++ uhost ++ upath ++
        (if ufq || !urq.isEmpty then '?' :: urq else []))) =
      usch ++ ':' :: (('/' :: '/' :: (userPart uusr ++ uhost ++ upath)) ++
        (if ufq || !urq.isEmpty then '?' :: urq else [])) := by
    simp [List.append_assoc]
  rw [hassoc]
  rw [getScheme_complete usch _ hscheme_ne ⟨c0, t0, hsch0, hca0⟩ hchars]
  dsimp only
  rw [splitQuery_render _ urq ufq hstuff_q hforce]
  dsimp only
  rw [hlower]
  rw [if_neg ?hb1]
  case hb1 =>
    intro hcc
    exact hcc.1 rfl
  rw [if_neg ?hb2]
  case hb2 =>
    intro hcc
    exact hcc.1 rfl
  rw [if_pos ?hb3]
  case hb3 =>
    exact ⟨.inl hscheme_ne, rfl⟩
  dsimp only [List.drop]
  rw [hsf]
  dsimp only
  rw [parseAuthority_render uusr uhost huser hhost_at hhost_ok]
  dsimp only
  rw [hopt]

theorem URLWF_set_fragment (u : GoURL) (h : URLWF u) (f : List Char) :
    URLWF { u with fragment := f } :=
  ⟨h.scheme_ne, h.scheme_head, h.scheme_chars, h.scheme_lower, h.opq_nil, h.host_ne,
   h.host_ok, h.host_no_at, h.host_no_slash, h.host_no_query, h.host_no_hash, h.host_no_ctl,
   h.user_chars, h.path_shape, h.path_no_query, h.path_no_hash, h.path_no_ctl,
   h.query_no_hash, h.query_no_ctl, h.force_query⟩

theorem urlParse_wf (s : String) (u : GoURL) (h : urlParse s = some u)
    (hs : u.scheme ≠ []) (hh : u.host ≠ []) : URLWF u := by
  unfold urlParse at h
  rcases hsf : splitFirst '#' s.data with ⟨pre, fro⟩
  rw [hsf] at h
  cases fro with
  | none =>
    dsimp only at h
    have hnh : '#' ∉ pre := (splitFirst_none '#' s.data pre hsf).2
    exact (urlParseCore_wf pre u h hnh hs hh).1
  | some f =>
    dsimp only at h
    rcases hc : urlParseCore pre with _ | u0
    · rw [hc] at h
      cases h
    · rw [hc] at h
      dsimp only at h
      obtain rfl := Option.some.inj h
      have hnh : '#' ∉ pre := (splitFirst_some '#' s.data pre f hsf).2
      have hs0 : u0.scheme ≠ [] := hs
      have hh0 : u0.host ≠ [] := hh
      have hwf0 := (urlParseCore_wf pre u0 hc hnh hs0 hh0).1
      exact URLWF_set_fragment u0 hwf0 f

theorem urlParse_render (u : GoURL) (h : URLWF u) : urlParse (urlString u) = some u := by
  obtain ⟨usch, uopq, uusr, uhost, upath, ufq, urq, ufrag⟩ := u
  have h0 : URLWF ⟨usch, uopq, uusr, uhost, upath, ufq, urq, []⟩ :=
    URLWF_set_fragment _ h []
  have hpre := urlParseCore_render _ h0 rfl
  have huser : ∀ ui, uusr = some ui → ∀ c ∈ ui, isUserinfoChar c = true := h.user_chars
  obtain ⟨hu_slash, hu_query, hu_hash, hu_ctl⟩ := userPart_facts uusr huser
  have hchars : ∀ c ∈ usch, isSchemeTailChar c = true := h.scheme_chars
  have hhost_hash : '#' ∉ uhost := h.host_no_hash
  have hpath_hash : '#' ∉ upath := h.path_no_hash
  have hquery_hash : '#' ∉ urq := h.query_no_hash
  have hQmem : ∀ c ∈ (if ufq || !urq.isEmpty then '?' :: urq else []), c = '?' ∨ c ∈ urq := by
    intro c hc
    split at hc
    · rcases List.mem_cons.mp hc with rfl | hx
      · exact .inl rfl
      · exact .inr hx
    · cases hc
  have hnh : '#' ∉ urlRender ⟨usch, uopq, uusr, uhost, upath, ufq, urq, []⟩ := by
    rw [urlRender_eq _ h0]
    intro hm
    simp only [List.mem_append, List.mem_cons, List.isEmpty_nil, Bool.not_true,
      Bool.false_eq_true, if_false, List.append_nil] at hm
    rcases hm with hm0 | hm0 | hm0 | hm0 | ((hm1 | hm1) | hm1) | hm1
    · exact schemeTail_ne_hash '#' (hchars '#' hm0) rfl
    · exact absurd hm0 (by decide)
    · exact absurd hm0 (by decide)
    · exact absurd hm0 (by decide)
    · exact hu_hash hm1
    · exact hhost_hash hm1
    · exact hpath_hash hm1
    · rcases hQmem '#' hm1 with h1 | h1
      · exact absurd h1 (by decide)
      · exact hquery_hash h1
  cases hfr : ufrag with
  | nil =>
    subst hfr
    unfold urlParse urlString
    dsimp only
    rw [splitFirst_not_mem '#' _ hnh]
    exact hpre
  | cons f0 ft =>
    subst hfr
    have hsplit2 : urlRender ⟨usch, uopq, uusr, uhost, upath, ufq, urq, f0 :: ft⟩ =
        urlRender ⟨usch, uopq, uusr, uhost, upath, ufq, urq, []⟩ ++ '#' :: (f0 :: ft) := by
      rw [urlRender_eq _ h, urlRender_eq _ h0]
      dsimp only
      simp [List.append_assoc]
    unfold urlParse urlString
    dsimp only
    rw [hsplit2, splitFirst_append '#' _ _ hnh]
    dsimp only
    rw [hpre]

theorem urlString_ne_empty (u : GoURL) (h : URLWF u) : urlString u ≠ "" := by
  obtain ⟨c0, t0, hc0, -⟩ := h.scheme_head
  unfold urlString
  intro hq
  have hd := congrArg String.data hq
  rw [urlRender_eq u h, hc0, List.cons_append] at hd
  cases hd

/-- C5: URL parsing is idempotent on its own canonical output: whenever asURL
succeeds on s and stores the canonical form t, running asURL on t succeeds and
returns the same result; a non-empty string that url.Parse accepts but that
lacks a scheme or a host fails with the partial-URL error; and a non-empty
string that url.Parse rejects fails with the invalid-URL error. -/
theorem asURL_idempotent :
    (∀ s t : String, asURL s = .ok t → asURL t = .ok t) ∧
    (∀ s : String, s ≠ "" → ∀ u, urlParse s = some u →
        (u.scheme.isEmpty || u.host.isEmpty) = true →
        asURL s = .error (.partialURLValue s)) ∧
    (∀ s : String, s ≠ "" → urlParse s = none →
        asURL s = .error (.invalidURL s)) := by
  refine ⟨?_, ?_, ?_⟩
  · intro s t h
    unfold asURL at h
    by_cases hs : s = ""
    · rw [if_pos hs] at h
      injection h with h1
      subst h1
      decide
    · rw [if_neg hs] at h
      rcases hp : urlParse s with _ | u
      · rw [hp] at h
        cases h
      · rw [hp] at h
        dsimp only at h
        by_cases hempty : (u.scheme.isEmpty || u.host.isEmpty) = true
        · rw [if_pos hempty] at h
          cases h
        · rw [if_neg hempty] at h
          injection h with h1
          subst h1
          have hschne : u.scheme ≠ [] := by
            intro h0
            apply hempty
            rw [h0]
            rfl
          have hhostne : u.host ≠ [] := by
            intro h0
            apply hempty
            rw [h0]
            simp
          have hwf := urlParse_wf s u hp hschne hhostne
          unfold asURL
          rw [if_neg (urlString_ne_empty u hwf)]
          rw [urlParse_render u hwf]
          dsimp only
          rw [if_neg hempty]
  · intro s hs u hp hempty
    unfold asURL
    rw [if_neg hs, hp]
    dsimp only
    rw [if_pos hempty]
  · intro s hs hp
    unfold asURL
    rw [if_neg hs, hp]

theorem asURL_idempotent_witness :
    asURL "http://h" = .ok "http://h" ∧
    asURL "localhost:8080" = .error (.partialURLValue "localhost:8080") ∧
    asURL "hello world" = .error (.partialURLValue "hello world") ∧
    asURL "http://[::1" = .error (.invalidURL "http://[::1") :=
  ⟨asURL_idempotent.1 "http://h" "http://h" (by decide),
   asURL_idempotent.2.1 "localhost:8080" (by decide)
     ⟨"localhost".data, "8080".data, none, [], [], false, [], []⟩ (by decide) (by decide),
   asURL_idempotent.2.1 "hello world" (by decide)
     ⟨[], [], none, [], "hello world".data, false, [], []⟩ (by decide) (by decide),
   asURL_idempotent.2.2 "http://[::1" (by decide) (by decide)⟩
